import Mathlib

/-!
A shallow embedding of the product-listing pipeline of src/app.py.

The embedded pieces are the pure core of the script: the title normaliser
norm_title (lines 13-17), the geometric deduplicator dedupe_by_box
(lines 19-26), the rank assigner assign_spots (lines 173-175), and the
sorting, fallback and matching logic of find_spot (lines 177-231).
The browser-bound steps of find_spot are modelled as an action trace so
that the control flow on error paths can be stated.

Strings are modelled as lists of unicode scalar values (List Char);
Python str.lower is modelled by ASCII lowercasing (Char.toLower), which
agrees with Python on every character appearing in this development.
-/

/-- Strings, modelled as lists of characters. -/
abbrev Str := List Char

/-- Whitespace as recognised by Python: the characters for which
str.isspace holds, which is also the set matched by the regex class \s
on unicode strings.  Used both by the strip step and by the collapse
step of norm_title. -/
def isPySpace (c : Char) : Bool :=
  decide (c.toNat = 32 ∨ c.toNat = 9 ∨ c.toNat = 10 ∨ c.toNat = 13 ∨
    c.toNat = 11 ∨ c.toNat = 12 ∨ c.toNat = 28 ∨ c.toNat = 29 ∨
    c.toNat = 30 ∨ c.toNat = 31 ∨ c.toNat = 133 ∨ c.toNat = 160 ∨
    c.toNat = 5760 ∨ (8192 ≤ c.toNat ∧ c.toNat ≤ 8202) ∨ c.toNat = 8232 ∨
    c.toNat = 8233 ∨ c.toNat = 8239 ∨ c.toNat = 8287 ∨ c.toNat = 12288)

/-- Python str.strip: drop leading and trailing whitespace. -/
def pyStrip (s : Str) : Str :=
  ((s.dropWhile isPySpace).reverse.dropWhile isPySpace).reverse

/-- The character-wise part of norm_title, applied in source order:
lowercase, then replace the non-breaking space u00a0 by an ordinary
space, then replace the en dash u2013 and the em dash u2014 by a
hyphen.  (The three str.replace calls of line 15 act independently on
single characters, so together with str.lower they are one map.) -/
def normChar (c : Char) : Char :=
  if Char.toLower c = Char.ofNat 160 then ' '
  else if Char.toLower c = Char.ofNat 8211 then '-'
  else if Char.toLower c = Char.ofNat 8212 then '-'
  else Char.toLower c

/-- The collapse step of norm_title, re.sub of the pattern \s+ with a
single space: every maximal run of whitespace becomes one ' '.  The
boolean state records whether the previous character was part of a
whitespace run. -/
def collapseAux : Bool → Str → Str
  | _, [] => []
  | prev, c :: rest =>
    if isPySpace c then
      if prev then collapseAux true rest
      else ' ' :: collapseAux true rest
    else c :: collapseAux false rest

/-- norm_title of src/app.py lines 13-17: strip, lowercase, replace
non-breaking space by space and dashes by hyphen, collapse whitespace
runs to a single space. -/
def normTitle (s : Str) : Str :=
  collapseAux false ((pyStrip s).map normChar)

/-- Python round(n, -1) on an integer: round to the nearest multiple of
ten, ties to the even multiple (Python rounds half to even). -/
def pyRound10 (n : Int) : Int :=
  let r := n % 10
  let q := n - r
  if r < 5 then q
  else if 5 < r then q + 10
  else if (q / 10) % 2 = 0 then q else q + 10

/-- One extracted product record, carrying the fields of the objects
produced by the scrape scripts that the python side reads: title and
absolute page position.  (href, w and h are never read by the python
pipeline and are omitted.) -/
structure Tile where
  title : Str
  x : Int
  y : Int
deriving DecidableEq

/-- The deduplication key of dedupe_by_box, line 22:
(round(x, -1), round(y, -1), title) - the raw title, not the
normalised one. -/
def tileKey (t : Tile) : Int × Int × Str :=
  (pyRound10 t.x, pyRound10 t.y, t.title)

/-- The loop of dedupe_by_box: the seen set is modelled as the list of
keys inserted so far (only membership is ever consulted). -/
def dedupeAux (seen : List (Int × Int × Str)) : List Tile → List Tile
  | [] => []
  | it :: rest =>
    if tileKey it ∈ seen then dedupeAux seen rest
    else it :: dedupeAux (tileKey it :: seen) rest

/-- dedupe_by_box of src/app.py lines 19-26: first-occurrence-wins
filtering on tileKey. -/
def dedupeByBox (items : List Tile) : List Tile :=
  dedupeAux [] items

/-- The sort key comparison of line 212 and line 221:
items.sort(key=lambda x: (x[y], x[x])) compares the pairs (y, x)
lexicographically. -/
def tileLeP (a b : Tile) : Prop :=
  a.y < b.y ∨ (a.y = b.y ∧ a.x ≤ b.x)

instance : DecidableRel tileLeP := fun a b => by
  unfold tileLeP
  exact inferInstance

instance : IsTotal Tile tileLeP := ⟨by
  intro a b
  unfold tileLeP
  omega⟩

instance : IsTrans Tile tileLeP := ⟨by
  intro a b c
  unfold tileLeP
  omega⟩

/-- Python list.sort is a stable sort, and a stable sort is determined
by its comparison: it is modelled by insertion sort with the same
non-strict lexicographic comparison, which inserts every element before
the later key-equal elements and after the earlier ones, preserving
input order inside each key class exactly as list.sort does. -/
def sortByYX (l : List Tile) : List Tile :=
  List.insertionSort tileLeP l

/-- assign_spots of src/app.py lines 173-175: enumerate(items, start=1)
writes spot = i into the i-th record.  Modelled functionally: the
records are paired with their spot. -/
def assignSpotsFrom : Nat → List Tile → List (Tile × Nat)
  | _, [] => []
  | n, t :: rest => (t, n) :: assignSpotsFrom (n + 1) rest

/-- assign_spots with the start value 1 used by find_spot. -/
def assignSpots (l : List Tile) : List (Tile × Nat) :=
  assignSpotsFrom 1 l

/-- The per-strategy post-processing of find_spot (lines 210-213 and
219-222): dedupe, sort by (y, x), assign spots. -/
def pipeline (raw : List Tile) : List (Tile × Nat) :=
  assignSpots (sortByYX (dedupeByBox raw))

/-- The matching loop of find_spot, lines 224-228: normalise the target
once, scan the items in order, and return the spot of the first item
whose normalised title equals the target; None when there is none. -/
def matchLoop (productName : Str) (items : List (Tile × Nat)) : Option Nat :=
  let target := normTitle productName
  (items.find? (fun p => decide (normTitle p.1.title = target))).map Prod.snd

/-- The data flow of find_spot, lines 209-231, as a function of the two
possible evaluate results: run the strict pipeline; if it is empty run
the relaxed pipeline and record the fallback; then match.  Returns the
triple (spot, items, used_fallback) of line 231. -/
def findSpotCore (productName : Str) (strictRaw relaxedRaw : List Tile) :
    Option Nat × List (Tile × Nat) × Bool :=
  let items := pipeline strictRaw
  if items.isEmpty then
    let items2 := pipeline relaxedRaw
    (matchLoop productName items2, items2, true)
  else
    (matchLoop productName items, items, false)

/-- One component of the python tuple returned by find_spot.  The type
offers every component kind the specification mentions (including an
optional matched title and a numeric confidence) so that their absence
from the actual return value is statable. -/
inductive RetComp where
  | rank : Option Nat → RetComp
  | evidence : List (Tile × Nat) → RetComp
  | flag : Bool → RetComp
  | titleComp : Option Str → RetComp
  | confComp : ℚ → RetComp
deriving DecidableEq

/-- Whether a component is an optional matched-title component. -/
def RetComp.isTitleC : RetComp → Bool
  | .titleComp _ => true
  | _ => false

/-- Whether a component is a confidence component. -/
def RetComp.isConfC : RetComp → Bool
  | .confComp _ => true
  | _ => false

/-- The value of the return statement of find_spot, line 231:
return spot, items, used_fallback - a three component tuple, modelled
as the list of its components. -/
def findSpotRet (productName : Str) (strictRaw relaxedRaw : List Tile) :
    List RetComp :=
  let items := pipeline strictRaw
  if items.isEmpty then
    let items2 := pipeline relaxedRaw
    [RetComp.rank (matchLoop productName items2), RetComp.evidence items2,
      RetComp.flag true]
  else
    [RetComp.rank (matchLoop productName items), RetComp.evidence items,
      RetComp.flag false]

/-- A naive substring test: does pat occur as a contiguous run inside
the second list?  Used to state the substring-containment side
conditions of the matcher claims. -/
def leadsWith : Str → Str → Bool
  | [], _ => true
  | _ :: _, [] => false
  | a :: as, b :: bs => a = b && leadsWith as bs

/-- hasSub pat s holds when pat occurs contiguously inside s. -/
def hasSub (pat : Str) : Str → Bool
  | [] => leadsWith pat []
  | c :: rest => leadsWith pat (c :: rest) || hasSub pat rest

/-- The awaited browser-bound steps of find_spot, lines 178-231, in
source order, together with the two explicit close calls of line 230
and the implicit teardown performed by the async-with block of
line 178 when it exits. -/
inductive PStep where
  | launchBrowser
  | newContext
  | newPage
  | gotoPage
  | dismissPopupsA
  | forceTab
  | waitTiles
  | scrollBottom
  | dismissPopupsB
  | saveShot
  | evalStrict
  | evalRelaxed
  | closeContext
  | closeBrowser
  | stopPlaywright
deriving DecidableEq

/-- The body of find_spot as a list of steps; the boolean marks the
steps whose exceptions the source swallows (dismiss_popups and
force_products_tab catch internally; the wait_for_selector call of
line 192 and the debug block of line 200 are wrapped in try/except at
the call site).  The debug block appears only when save_debug is set;
the relaxed evaluate appears only when the strict pipeline came back
empty (line 217). -/
def findSpotBody (saveDebug : Bool) (strictEmpty : Bool) :
    List (PStep × Bool) :=
  [(PStep.launchBrowser, false), (PStep.newContext, false),
    (PStep.newPage, false), (PStep.gotoPage, false),
    (PStep.dismissPopupsA, true), (PStep.forceTab, true),
    (PStep.waitTiles, true), (PStep.scrollBottom, false),
    (PStep.dismissPopupsB, true)]
  ++ (if saveDebug then [(PStep.saveShot, true)] else [])
  ++ [(PStep.evalStrict, false)]
  ++ (if strictEmpty then [(PStep.evalRelaxed, false)] else [])
  ++ [(PStep.closeContext, false), (PStep.closeBrowser, false)]

/-- Run the body under a failure oracle: each step in turn is attempted;
when a step raises (per the oracle) and the source does not swallow the
exception, the body aborts there and the remaining steps never run. -/
def runBody (raises : PStep → Bool) : List (PStep × Bool) → List PStep
  | [] => []
  | (a, sw) :: rest =>
    a :: (if raises a && !sw then [] else runBody raises rest)

/-- The steps of one invocation of find_spot that actually execute under
the failure oracle.  The async-with teardown of the playwright driver
(python context-manager semantics) runs on every exit path, so it is
appended unconditionally. -/
def findSpotRun (saveDebug strictEmpty : Bool) (raises : PStep → Bool) :
    List PStep :=
  runBody raises (findSpotBody saveDebug strictEmpty) ++ [PStep.stopPlaywright]

/-- The executed steps of a failure-free run, with the fallback branch
driven by the actual strict extraction result. -/
def findSpotTrace (saveDebug : Bool) (strictRaw : List Tile) : List PStep :=
  findSpotRun saveDebug (pipeline strictRaw).isEmpty (fun _ => false)

/-- Absence of two adjacent whitespace characters; the shape of a string
whose whitespace runs are collapsed. -/
def noAdjSpace : Str → Bool
  | [] => true
  | [_] => true
  | a :: b :: rest => !(isPySpace a && isPySpace b) && noAdjSpace (b :: rest)

/-- A list whose head, if any, is not whitespace. -/
def headOk (l : Str) : Prop :=
  ∀ c, l.head? = some c → isPySpace c = false

/-- A list whose last element, if any, is not whitespace. -/
def lastOk (l : Str) : Prop :=
  ∀ c, l.getLast? = some c → isPySpace c = false

-- Concrete records used by the claim witnesses and counterexamples.

/-- A listing title containing the claim C1 target as a substring. -/
def beurerTile : Tile :=
  { title := "Beurer BM 28 Blood Pressure Monitor".toList, x := 100, y := 200 }

/-- A second, unrelated listing title. -/
def omronTile : Tile :=
  { title := "Omron M2 Basic".toList, x := 400, y := 200 }

/-- Two records four pixels apart with the same title (claim C2). -/
def tileLeft : Tile := { title := "Mini Widget".toList, x := 12, y := 0 }

/-- See tileLeft. -/
def tileRight : Tile := { title := "Mini Widget".toList, x := 16, y := 0 }

/-- Two records at the same position whose titles differ only by case
(claim C2). -/
def tileUpper : Tile := { title := "Gadget".toList, x := 50, y := 50 }

/-- See tileUpper. -/
def tileLower : Tile := { title := "gadget".toList, x := 50, y := 50 }

/-- The failure oracle of the claim C4 scenario: the strict evaluate
call of line 210 raises and every other step succeeds. -/
def failStrictOracle : PStep → Bool := fun a => decide (a = PStep.evalStrict)

/-- The oracle under which no step raises. -/
def noFailOracle : PStep → Bool := fun _ => false

-- ======================= helper lemmas =======================

theorem char_toNat_ofNat {m : Nat} (h : m.isValidChar) :
    (Char.ofNat m).toNat = m := by
  simp [Char.ofNat, h, Char.ofNatAux, Char.toNat]
  rfl

theorem isPySpace_iff {c : Char} : isPySpace c = true ↔
    (c.toNat = 32 ∨ c.toNat = 9 ∨ c.toNat = 10 ∨ c.toNat = 13 ∨
    c.toNat = 11 ∨ c.toNat = 12 ∨ c.toNat = 28 ∨ c.toNat = 29 ∨
    c.toNat = 30 ∨ c.toNat = 31 ∨ c.toNat = 133 ∨ c.toNat = 160 ∨
    c.toNat = 5760 ∨ (8192 ≤ c.toNat ∧ c.toNat ≤ 8202) ∨ c.toNat = 8232 ∨
    c.toNat = 8233 ∨ c.toNat = 8239 ∨ c.toNat = 8287 ∨ c.toNat = 12288) := by
  simp [isPySpace]

theorem toLower_eq_of_upper {c : Char} (h : 65 ≤ c.toNat ∧ c.toNat ≤ 90) :
    Char.toLower c = Char.ofNat (c.toNat + 32) := by
  simp only [Char.toLower]
  rw [if_pos h]

theorem toLower_eq_self {c : Char} (h : ¬(65 ≤ c.toNat ∧ c.toNat ≤ 90)) :
    Char.toLower c = c := by
  simp only [Char.toLower]
  rw [if_neg h]

theorem toNat_toLower_upper {c : Char} (h : 65 ≤ c.toNat ∧ c.toNat ≤ 90) :
    (Char.toLower c).toNat = c.toNat + 32 := by
  rw [toLower_eq_of_upper h]
  exact char_toNat_ofNat (Or.inl (by omega))

theorem isPySpace_toLower (c : Char) :
    isPySpace (Char.toLower c) = isPySpace c := by
  by_cases h : 65 ≤ c.toNat ∧ c.toNat ≤ 90
  · have h1 : isPySpace (Char.toLower c) = false := by
      rw [Bool.eq_false_iff]
      intro hs
      have := isPySpace_iff.mp hs
      rw [toNat_toLower_upper h] at this
      omega
    have h2 : isPySpace c = false := by
      rw [Bool.eq_false_iff]
      intro hs
      have := isPySpace_iff.mp hs
      omega
    rw [h1, h2]
  · rw [toLower_eq_self h]

theorem toLower_toLower (c : Char) :
    Char.toLower (Char.toLower c) = Char.toLower c := by
  by_cases h : 65 ≤ c.toNat ∧ c.toNat ≤ 90
  · rw [toLower_eq_of_upper h]
    apply toLower_eq_self
    rw [char_toNat_ofNat (Or.inl (by omega))]
    omega
  · rw [toLower_eq_self h, toLower_eq_self h]

theorem char_eq_iff_toNat {a b : Char} : a = b ↔ a.toNat = b.toNat := by
  constructor
  · intro h; rw [h]
  · intro h
    apply Char.ext
    have : a.val.toNat = b.val.toNat := h
    exact UInt32.toNat.inj this

theorem normChar_eq_space {c : Char} (h1 : Char.toLower c = Char.ofNat 160) :
    normChar c = ' ' := by
  unfold normChar
  rw [if_pos h1]

theorem normChar_eq_dashA {c : Char} (h1 : ¬Char.toLower c = Char.ofNat 160)
    (h2 : Char.toLower c = Char.ofNat 8211) : normChar c = '-' := by
  unfold normChar
  rw [if_neg h1, if_pos h2]

theorem normChar_eq_dashB {c : Char} (h1 : ¬Char.toLower c = Char.ofNat 160)
    (h2 : ¬Char.toLower c = Char.ofNat 8211)
    (h3 : Char.toLower c = Char.ofNat 8212) : normChar c = '-' := by
  unfold normChar
  rw [if_neg h1, if_neg h2, if_pos h3]

theorem normChar_eq_lower {c : Char} (h1 : ¬Char.toLower c = Char.ofNat 160)
    (h2 : ¬Char.toLower c = Char.ofNat 8211)
    (h3 : ¬Char.toLower c = Char.ofNat 8212) : normChar c = Char.toLower c := by
  unfold normChar
  rw [if_neg h1, if_neg h2, if_neg h3]

theorem isPySpace_normChar (c : Char) :
    isPySpace (normChar c) = isPySpace c := by
  by_cases h1 : Char.toLower c = Char.ofNat 160
  · rw [normChar_eq_space h1, ← isPySpace_toLower c, h1]
    decide
  · by_cases h2 : Char.toLower c = Char.ofNat 8211
    · rw [normChar_eq_dashA h1 h2, ← isPySpace_toLower c, h2]
      decide
    · by_cases h3 : Char.toLower c = Char.ofNat 8212
      · rw [normChar_eq_dashB h1 h2 h3, ← isPySpace_toLower c, h3]
        decide
      · rw [normChar_eq_lower h1 h2 h3]
        exact isPySpace_toLower c

theorem normChar_normChar (c : Char) :
    normChar (normChar c) = normChar c := by
  by_cases h1 : Char.toLower c = Char.ofNat 160
  · rw [normChar_eq_space h1]
    decide
  · by_cases h2 : Char.toLower c = Char.ofNat 8211
    · rw [normChar_eq_dashA h1 h2]
      decide
    · by_cases h3 : Char.toLower c = Char.ofNat 8212
      · rw [normChar_eq_dashB h1 h2 h3]
        decide
      · rw [normChar_eq_lower h1 h2 h3]
        have hl := toLower_toLower c
        rw [normChar_eq_lower (by rw [hl]; exact h1) (by rw [hl]; exact h2)
          (by rw [hl]; exact h3), hl]

theorem normChar_not_special (c : Char) :
    (normChar c).toNat ≠ 160 ∧ (normChar c).toNat ≠ 8211 ∧
    (normChar c).toNat ≠ 8212 ∧
    ¬(65 ≤ (normChar c).toNat ∧ (normChar c).toNat ≤ 90) := by
  by_cases h1 : Char.toLower c = Char.ofNat 160
  · rw [normChar_eq_space h1]
    refine ⟨by decide, by decide, by decide, by decide⟩
  · by_cases h2 : Char.toLower c = Char.ofNat 8211
    · rw [normChar_eq_dashA h1 h2]
      refine ⟨by decide, by decide, by decide, by decide⟩
    · by_cases h3 : Char.toLower c = Char.ofNat 8212
      · rw [normChar_eq_dashB h1 h2 h3]
        refine ⟨by decide, by decide, by decide, by decide⟩
      · rw [normChar_eq_lower h1 h2 h3]
        refine ⟨?_, ?_, ?_, ?_⟩
        · intro hn
          exact h1 (char_eq_iff_toNat.mpr (by rw [hn]; decide))
        · intro hn
          exact h2 (char_eq_iff_toNat.mpr (by rw [hn]; decide))
        · intro hn
          exact h3 (char_eq_iff_toNat.mpr (by rw [hn]; decide))
        · intro hn
          by_cases h : 65 ≤ c.toNat ∧ c.toNat ≤ 90
          · rw [toNat_toLower_upper h] at hn
            omega
          · rw [toLower_eq_self h] at hn
            exact h hn

theorem noAdj_cons {a : Char} {l : Str} (h : noAdjSpace l = true)
    (hh : ∀ c, l.head? = some c → (isPySpace a && isPySpace c) = false) :
    noAdjSpace (a :: l) = true := by
  cases l with
  | nil => rfl
  | cons b rest =>
    have hb := hh b rfl
    simp only [noAdjSpace, h, Bool.and_true]
    simp [hb]

theorem noAdj_tail {a : Char} {l : Str} (h : noAdjSpace (a :: l) = true) :
    noAdjSpace l = true := by
  cases l with
  | nil => rfl
  | cons b rest =>
    simp only [noAdjSpace, Bool.and_eq_true] at h
    exact h.2

theorem collapse_head_true : ∀ (l : Str) (c : Char) (rest : Str),
    collapseAux true l = c :: rest → isPySpace c = false := by
  intro l
  induction l with
  | nil => intro c rest h; simp [collapseAux] at h
  | cons a as ih =>
    intro c rest h
    by_cases ha : isPySpace a = true
    · rw [collapseAux, if_pos ha] at h
      exact ih c rest h
    · rw [collapseAux, if_neg ha] at h
      rw [Bool.not_eq_true] at ha
      cases h
      exact ha

theorem collapse_mem : ∀ (b : Bool) (l : Str) (c : Char),
    c ∈ collapseAux b l → c = ' ' ∨ (c ∈ l ∧ isPySpace c = false) := by
  intro b l
  induction l generalizing b with
  | nil => intro c h; simp [collapseAux] at h
  | cons a as ih =>
    intro c h
    by_cases ha : isPySpace a = true
    · rw [collapseAux, if_pos ha] at h
      cases b with
      | true =>
        rcases ih true c h with h1 | h2
        · exact Or.inl h1
        · exact Or.inr ⟨List.mem_cons_of_mem a h2.1, h2.2⟩
      | false =>
        rcases List.mem_cons.mp h with h1 | h1
        · exact Or.inl h1
        · rcases ih true c h1 with h2 | h2
          · exact Or.inl h2
          · exact Or.inr ⟨List.mem_cons_of_mem a h2.1, h2.2⟩
    · rw [collapseAux, if_neg ha] at h
      rcases List.mem_cons.mp h with h1 | h1
      · subst h1
        exact Or.inr ⟨List.mem_cons_self _ _, Bool.not_eq_true _ ▸ ha⟩
      · rcases ih false c h1 with h2 | h2
        · exact Or.inl h2
        · exact Or.inr ⟨List.mem_cons_of_mem a h2.1, h2.2⟩

theorem collapse_noAdj : ∀ (b : Bool) (l : Str),
    noAdjSpace (collapseAux b l) = true := by
  intro b l
  induction l generalizing b with
  | nil => rfl
  | cons a as ih =>
    by_cases ha : isPySpace a = true
    · cases b with
      | true =>
        rw [collapseAux, if_pos ha]
        exact ih true
      | false =>
        rw [collapseAux, if_pos ha]
        apply noAdj_cons (ih true)
        intro c hc
        cases hrest : collapseAux true as with
        | nil => rw [hrest] at hc; simp at hc
        | cons d ds =>
          rw [hrest] at hc
          simp only [List.head?] at hc
          cases hc
          have hd := collapse_head_true as _ _ hrest
          rw [hd, Bool.and_false]
    · rw [collapseAux, if_neg ha]
      apply noAdj_cons (ih false)
      intro c _
      rw [Bool.not_eq_true] at ha
      rw [ha, Bool.false_and]

theorem collapse_eq_nil : ∀ (b : Bool) (l : Str),
    collapseAux b l = [] → ∀ c ∈ l, isPySpace c = true := by
  intro b l
  induction l generalizing b with
  | nil => intro _ c hc; simp at hc
  | cons a as ih =>
    intro h c hc
    by_cases ha : isPySpace a = true
    · rw [collapseAux, if_pos ha] at h
      cases b with
      | true =>
        rcases List.mem_cons.mp hc with h1 | h1
        · subst h1; exact ha
        · exact ih true h c h1
      | false => simp at h
    · rw [collapseAux, if_neg ha] at h
      simp at h

theorem collapse_fix : ∀ (l : Str),
    noAdjSpace l = true → (∀ c ∈ l, isPySpace c = true → c = ' ') →
    collapseAux false l = l ∧ (headOk l → collapseAux true l = l) := by
  intro l
  induction l with
  | nil => exact fun _ _ => ⟨rfl, fun _ => rfl⟩
  | cons a as ih =>
    intro hadj hplain
    have hadj' : noAdjSpace as = true := noAdj_tail hadj
    have hplain' : ∀ c ∈ as, isPySpace c = true → c = ' ' :=
      fun c hc => hplain c (List.mem_cons_of_mem a hc)
    obtain ⟨ihf, iht⟩ := ih hadj' hplain'
    by_cases ha : isPySpace a = true
    · have haS : a = ' ' := hplain a (List.mem_cons_self _ _) ha
      have hheadas : headOk as := by
        intro c hc
        cases as with
        | nil => simp at hc
        | cons d ds =>
          simp only [List.head?] at hc
          cases hc
          simp only [noAdjSpace, Bool.and_eq_true] at hadj
          have := hadj.1
          rw [ha] at this
          simpa using this
      constructor
      · rw [collapseAux, if_pos ha, iht hheadas, haS]
        simp
      · intro hhead
        have := hhead a rfl
        rw [ha] at this
        cases this
    · rw [Bool.not_eq_true] at ha
      constructor
      · rw [collapseAux, ha]
        simp only [Bool.false_eq_true, if_false]
        rw [ihf]
      · intro _
        rw [collapseAux, ha]
        simp only [Bool.false_eq_true, if_false]
        rw [ihf]

theorem collapse_headOk {l : Str} (h : headOk l) :
    headOk (collapseAux false l) := by
  cases l with
  | nil => intro c hc; simp [collapseAux] at hc
  | cons a as =>
    have ha : isPySpace a = false := h a rfl
    intro c hc
    rw [collapseAux, ha] at hc
    simp only [Bool.false_eq_true, if_false, List.head?] at hc
    cases hc
    exact ha

theorem collapse_ne_nil {l : Str} (b : Bool) (hne : l ≠ []) (h : lastOk l) :
    collapseAux b l ≠ [] := by
  intro heq
  have hall := collapse_eq_nil b l heq
  have hlast := h (l.getLast hne) (List.getLast?_eq_getLast l hne)
  have := hall (l.getLast hne) (List.getLast_mem hne)
  rw [hlast] at this
  cases this

theorem collapse_lastOk : ∀ (b : Bool) (l : Str), lastOk l →
    lastOk (collapseAux b l) := by
  intro b l
  induction l generalizing b with
  | nil => intro _ c hc; simp [collapseAux] at hc
  | cons a as ih =>
    intro h
    cases as with
    | nil =>
      have ha : isPySpace a = false := h a rfl
      rw [collapseAux, ha]
      simp only [Bool.false_eq_true, if_false]
      intro c hc
      rw [collapseAux] at hc
      simp only [List.getLast?] at hc
      cases hc
      exact ha
    | cons d ds =>
      have h' : lastOk (d :: ds) := by
        intro c hc
        exact h c (by rw [List.getLast?_cons_cons]; exact hc)
      have hne : collapseAux true (d :: ds) ≠ [] :=
        collapse_ne_nil true (by simp) h'
      have hne' : collapseAux false (d :: ds) ≠ [] :=
        collapse_ne_nil false (by simp) h'
      by_cases ha : isPySpace a = true
      · cases b with
        | true =>
          rw [collapseAux, if_pos ha]
          exact ih true h'
        | false =>
          rw [collapseAux, if_pos ha]
          simp only [Bool.false_eq_true, if_false]
          intro c hc
          obtain ⟨k, ks, hK⟩ := List.exists_cons_of_ne_nil hne
          rw [hK, List.getLast?_cons_cons, ← hK] at hc
          exact ih true h' c hc
      · rw [Bool.not_eq_true] at ha
        rw [collapseAux, ha]
        simp only [Bool.false_eq_true, if_false]
        intro c hc
        obtain ⟨k, ks, hK⟩ := List.exists_cons_of_ne_nil hne'
        rw [hK] at hc
        rw [List.getLast?_cons_cons] at hc
        rw [← hK] at hc
        exact ih false h' c hc

theorem dropWhile_headOk (l : Str) : headOk (l.dropWhile isPySpace) := by
  induction l with
  | nil => intro c hc; simp at hc
  | cons a as ih =>
    intro c hc
    rw [List.dropWhile_cons] at hc
    by_cases ha : isPySpace a = true
    · rw [if_pos ha] at hc
      exact ih c hc
    · rw [if_neg ha] at hc
      simp only [List.head?] at hc
      cases hc
      exact Bool.not_eq_true _ ▸ ha

theorem dropWhile_eq_self_of_headOk {l : Str} (h : headOk l) :
    l.dropWhile isPySpace = l := by
  cases l with
  | nil => rfl
  | cons a as =>
    rw [List.dropWhile_cons, h a rfl]
    simp

theorem suffix_getLast? {l t : Str} (h : t <:+ l) (hne : t ≠ []) :
    t.getLast? = l.getLast? := by
  obtain ⟨pre, hpre⟩ := h
  rw [← hpre, List.getLast?_append]
  rw [List.getLast?_eq_getLast t hne]
  rfl

theorem pyStrip_headOk (s : Str) : headOk (pyStrip s) := by
  unfold pyStrip
  intro c hc
  rw [List.head?_reverse] at hc
  by_cases hM : (s.dropWhile isPySpace).reverse.dropWhile isPySpace = []
  · rw [hM] at hc
    simp at hc
  · rw [suffix_getLast? (List.dropWhile_suffix isPySpace) hM] at hc
    rw [List.getLast?_reverse] at hc
    exact dropWhile_headOk s c hc

theorem pyStrip_lastOk (s : Str) : lastOk (pyStrip s) := by
  unfold pyStrip
  intro c hc
  rw [List.getLast?_reverse] at hc
  exact dropWhile_headOk (s.dropWhile isPySpace).reverse c hc

theorem pyStrip_fix {l : Str} (hh : headOk l) (hl : lastOk l) :
    pyStrip l = l := by
  unfold pyStrip
  rw [dropWhile_eq_self_of_headOk hh]
  have : headOk l.reverse := by
    intro c hc
    rw [List.head?_reverse] at hc
    exact hl c hc
  rw [dropWhile_eq_self_of_headOk this, List.reverse_reverse]

theorem map_normChar_headOk {l : Str} (h : headOk l) :
    headOk (l.map normChar) := by
  intro c hc
  rw [List.head?_map] at hc
  cases hl : l.head? with
  | none => rw [hl] at hc; simp at hc
  | some a =>
    rw [hl] at hc
    simp only [Option.map_some'] at hc
    cases hc
    rw [isPySpace_normChar]
    exact h a hl

theorem map_normChar_lastOk {l : Str} (h : lastOk l) :
    lastOk (l.map normChar) := by
  intro c hc
  rw [List.getLast?_map] at hc
  cases hl : l.getLast? with
  | none => rw [hl] at hc; simp at hc
  | some a =>
    rw [hl] at hc
    simp only [Option.map_some'] at hc
    cases hc
    rw [isPySpace_normChar]
    exact h a hl

theorem map_eq_self_of_fixed {l : Str} {f : Char → Char}
    (h : ∀ c ∈ l, f c = c) : l.map f = l := by
  induction l with
  | nil => rfl
  | cons a as ih =>
    rw [List.map_cons, h a (List.mem_cons_self _ _),
      ih (fun c hc => h c (List.mem_cons_of_mem a hc))]

theorem normTitle_headOk (s : Str) : headOk (normTitle s) :=
  collapse_headOk (map_normChar_headOk (pyStrip_headOk s))

theorem normTitle_lastOk (s : Str) : lastOk (normTitle s) :=
  collapse_lastOk false _ (map_normChar_lastOk (pyStrip_lastOk s))

theorem normTitle_noAdj (s : Str) : noAdjSpace (normTitle s) = true :=
  collapse_noAdj false _

theorem normTitle_chars (s : Str) :
    ∀ c ∈ normTitle s, c = ' ' ∨ (normChar c = c ∧ isPySpace c = false) := by
  intro c hc
  rcases collapse_mem false _ c hc with h | h
  · exact Or.inl h
  · right
    refine ⟨?_, h.2⟩
    rcases List.mem_map.mp h.1 with ⟨c0, _, hc0⟩
    rw [← hc0]
    exact normChar_normChar c0

theorem normTitle_plain (s : Str) :
    ∀ c ∈ normTitle s, isPySpace c = true → c = ' ' := by
  intro c hc hsp
  rcases normTitle_chars s c hc with h | h
  · exact h
  · rw [hsp] at h
    cases h.2

theorem normTitle_fixedChars (s : Str) :
    ∀ c ∈ normTitle s, normChar c = c := by
  intro c hc
  rcases normTitle_chars s c hc with h | h
  · subst h
    decide
  · exact h.1

theorem normTitle_idem (s : Str) : normTitle (normTitle s) = normTitle s := by
  show collapseAux false (List.map normChar (pyStrip (normTitle s))) = normTitle s
  rw [pyStrip_fix (normTitle_headOk s) (normTitle_lastOk s)]
  rw [map_eq_self_of_fixed (normTitle_fixedChars s)]
  exact (collapse_fix _ (normTitle_noAdj s) (normTitle_plain s)).1

theorem dedupeAux_inv : ∀ (seen : List (Int × Int × Str)) (l : List Tile),
    (∀ a ∈ dedupeAux seen l, tileKey a ∉ seen) ∧
    (dedupeAux seen l).Pairwise (fun a b => tileKey a ≠ tileKey b) := by
  intro seen l
  induction l generalizing seen with
  | nil => exact ⟨by simp [dedupeAux], by simp [dedupeAux]⟩
  | cons it rest ih =>
    by_cases h : tileKey it ∈ seen
    · rw [dedupeAux, if_pos h]
      exact ih seen
    · rw [dedupeAux, if_neg h]
      constructor
      · intro a ha
        rcases List.mem_cons.mp ha with rfl | ha'
        · exact h
        · have hnot := (ih (tileKey it :: seen)).1 a ha'
          intro hs
          exact hnot (List.mem_cons_of_mem _ hs)
      · rw [List.pairwise_cons]
        constructor
        · intro b hb
          have hnot := (ih (tileKey it :: seen)).1 b hb
          intro he
          apply hnot
          rw [← he]
          exact List.mem_cons_self _ _
        · exact (ih (tileKey it :: seen)).2

theorem dedupe_pair_collapse (a b : Tile) (h : tileKey a = tileKey b) :
    dedupeByBox [a, b] = [a] := by
  simp [dedupeByBox, dedupeAux, ← h]

theorem dedupe_pair_keep (a b : Tile) (h : tileKey a ≠ tileKey b) :
    dedupeByBox [a, b] = [a, b] := by
  have h' : tileKey b ≠ tileKey a := Ne.symm h
  simp [dedupeByBox, dedupeAux, h']

theorem dedupe_cons (a : Tile) (rest : List Tile) :
    dedupeByBox (a :: rest) = a :: dedupeAux [tileKey a] rest := by
  rw [dedupeByBox, dedupeAux]
  simp

theorem assignSpotsFrom_length : ∀ (n : Nat) (l : List Tile),
    (assignSpotsFrom n l).length = l.length := by
  intro n l
  induction l generalizing n with
  | nil => rfl
  | cons a rest ih => simp [assignSpotsFrom, ih]

theorem assignSpotsFrom_map_fst : ∀ (n : Nat) (l : List Tile),
    (assignSpotsFrom n l).map Prod.fst = l := by
  intro n l
  induction l generalizing n with
  | nil => rfl
  | cons a rest ih => simp [assignSpotsFrom, ih]

theorem assignSpotsFrom_map_snd : ∀ (n : Nat) (l : List Tile),
    (assignSpotsFrom n l).map Prod.snd = List.range' n l.length := by
  intro n l
  induction l generalizing n with
  | nil => rfl
  | cons a rest ih =>
    simp only [assignSpotsFrom, List.map_cons, List.length_cons,
      List.range'_succ, ih]

theorem assignSpotsFrom_getElem? : ∀ (n : Nat) (l : List Tile) (i : Nat),
    (assignSpotsFrom n l)[i]? = l[i]?.map (fun t => (t, n + i)) := by
  intro n l
  induction l generalizing n with
  | nil => intro i; simp [assignSpotsFrom]
  | cons a rest ih =>
    intro i
    cases i with
    | zero => simp [assignSpotsFrom]
    | succ i' =>
      rw [assignSpotsFrom, List.getElem?_cons_succ, List.getElem?_cons_succ, ih]
      have he : n + 1 + i' = n + (i' + 1) := by omega
      rw [he]

theorem assignSpotsFrom_mem : ∀ (n : Nat) (l : List Tile) (p : Tile × Nat),
    p ∈ assignSpotsFrom n l →
    ∃ i, i < l.length ∧ l[i]? = some p.1 ∧ p.2 = n + i := by
  intro n l p hp
  rcases List.mem_iff_getElem?.mp hp with ⟨i, hi⟩
  rw [assignSpotsFrom_getElem?] at hi
  cases hl : l[i]? with
  | none => rw [hl] at hi; simp at hi
  | some t =>
    rw [hl] at hi
    simp only [Option.map_some'] at hi
    injection hi with hi
    refine ⟨i, ?_, ?_, ?_⟩
    · exact (List.getElem?_eq_some_iff.mp hl).1
    · rw [hl, ← hi]
    · rw [← hi]

theorem pipeline_map_snd (raw : List Tile) :
    (pipeline raw).map Prod.snd = List.range' 1 (pipeline raw).length := by
  rw [pipeline, assignSpots, assignSpotsFrom_map_snd, assignSpotsFrom_length]

theorem pipeline_chain (raw : List Tile) :
    (pipeline raw).Chain' (fun p q => tileLeP p.1 q.1) := by
  have hs : (sortByYX (dedupeByBox raw)).Pairwise tileLeP :=
    List.sorted_insertionSort tileLeP (dedupeByBox raw)
  have hc := hs.chain'
  rw [← assignSpotsFrom_map_fst 1 (sortByYX (dedupeByBox raw))] at hc
  exact (List.chain'_map Prod.fst).mp hc

theorem pipeline_nil : pipeline [] = [] := rfl

theorem pipeline_length (raw : List Tile) :
    (pipeline raw).length = (dedupeByBox raw).length := by
  rw [pipeline, assignSpots, assignSpotsFrom_length, sortByYX,
    List.length_insertionSort]

theorem pipeline_eq_nil_iff (raw : List Tile) :
    pipeline raw = [] ↔ raw = [] := by
  constructor
  · intro h
    cases raw with
    | nil => rfl
    | cons a rest =>
      have h1 : (pipeline (a :: rest)).length = 0 := by rw [h]; rfl
      rw [pipeline_length, dedupe_cons] at h1
      simp at h1
  · intro h
    rw [h]
    exact pipeline_nil

theorem findAux_some (target : Str) : ∀ (l : List Tile) (n : Nat) (t : Tile) (s : Nat),
    (assignSpotsFrom n l).find? (fun p => decide (normTitle p.1.title = target)) =
      some (t, s) →
    n ≤ s ∧ s - n < l.length ∧ l[s - n]? = some t ∧ normTitle t.title = target ∧
    ∀ j, j < s - n → ∀ u, l[j]? = some u → normTitle u.title ≠ target := by
  intro l
  induction l with
  | nil => intro n t s h; simp [assignSpotsFrom] at h
  | cons a rest ih =>
    intro n t s h
    rw [assignSpotsFrom] at h
    by_cases hp : normTitle a.title = target
    · rw [List.find?_cons_of_pos _ (by simp [hp])] at h
      injection h with h
      cases h
      refine ⟨Nat.le_refl n, ?_, ?_, hp, ?_⟩
      · simp
      · simp
      · intro j hj
        omega
    · rw [List.find?_cons_of_neg _ (by simp [hp])] at h
      obtain ⟨h1, h2, h3, h4, h5⟩ := ih (n + 1) t s h
      have hlen : (a :: rest).length = rest.length + 1 := rfl
      have hsn : s - n = (s - (n + 1)) + 1 := by omega
      refine ⟨by omega, by omega, ?_, h4, ?_⟩
      · rw [hsn, List.getElem?_cons_succ]
        exact h3
      · intro j hj u hu
        cases j with
        | zero =>
          rw [List.getElem?_cons_zero] at hu
          injection hu with hu
          rw [← hu]
          exact hp
        | succ j' =>
          rw [List.getElem?_cons_succ] at hu
          exact h5 j' (by omega) u hu

theorem findAux_first (target : Str) : ∀ (l : List Tile) (n i : Nat)
    (hi : i < l.length),
    normTitle (l[i].title) = target →
    (∀ j, j < i → ∀ u, l[j]? = some u → normTitle u.title ≠ target) →
    (assignSpotsFrom n l).find? (fun p => decide (normTitle p.1.title = target)) =
      some (l[i], n + i) := by
  intro l
  induction l with
  | nil => intro n i hi; simp at hi
  | cons a rest ih =>
    intro n i hi hmatch hmin
    rw [assignSpotsFrom]
    cases i with
    | zero =>
      have hm : normTitle a.title = target := by simpa using hmatch
      rw [List.find?_cons_of_pos _ (by simp [hm])]
      simp
    | succ i' =>
      have hp : ¬(normTitle a.title = target) :=
        hmin 0 (Nat.succ_pos i') a List.getElem?_cons_zero
      rw [List.find?_cons_of_neg _ (by simp [hp])]
      have hi' : i' < rest.length := by
        have hlen : (a :: rest).length = rest.length + 1 := rfl
        omega
      have hmatch' : normTitle (rest[i'].title) = target := by
        rw [← List.getElem_cons_succ (a := a) (h := hi)]
        exact hmatch
      have hmin' : ∀ j, j < i' → ∀ u, rest[j]? = some u →
          normTitle u.title ≠ target := by
        intro j hj u hu
        exact hmin (j + 1) (by omega) u (by rw [List.getElem?_cons_succ]; exact hu)
      have hrec := ih (n + 1) i' hi' hmatch' hmin'
      rw [hrec]
      have he : n + 1 + i' = n + (i' + 1) := by omega
      rw [List.getElem_cons_succ, he]

theorem matchLoop_none_iff (name : Str) (items : List (Tile × Nat)) :
    matchLoop name items = none ↔
    ∀ p ∈ items, normTitle p.1.title ≠ normTitle name := by
  rw [matchLoop, Option.map_eq_none', List.find?_eq_none]
  simp

theorem matchLoop_some (name : Str) (l : List Tile) (s : Nat)
    (h : matchLoop name (assignSpots l) = some s) :
    1 ≤ s ∧ s - 1 < l.length ∧
    (∃ t, l[s - 1]? = some t ∧ normTitle t.title = normTitle name) ∧
    ∀ j, j < s - 1 → ∀ u, l[j]? = some u →
      normTitle u.title ≠ normTitle name := by
  simp only [matchLoop, assignSpots] at h
  cases hf : (assignSpotsFrom 1 l).find?
      (fun p => decide (normTitle p.1.title = normTitle name)) with
  | none => rw [hf] at h; simp at h
  | some p =>
    rw [hf] at h
    simp only [Option.map_some'] at h
    injection h with h
    obtain ⟨h1, h2, h3, h4, h5⟩ :=
      findAux_some (normTitle name) l 1 p.1 p.2 (by rw [hf])
    subst h
    exact ⟨h1, h2, ⟨p.1, h3, h4⟩, h5⟩

theorem matchLoop_first (name : Str) (l : List Tile) (i : Nat)
    (hi : i < l.length)
    (hm : normTitle (l[i].title) = normTitle name)
    (hmin : ∀ j, j < i → ∀ u, l[j]? = some u →
      normTitle u.title ≠ normTitle name) :
    matchLoop name (assignSpots l) = some (i + 1) := by
  simp only [matchLoop, assignSpots]
  rw [findAux_first (normTitle name) l 1 i hi hm hmin]
  simp only [Option.map_some']
  have he : 1 + i = i + 1 := by omega
  rw [he]

theorem findSpotCore_of_strict_nil (name : Str) (relaxedRaw : List Tile) :
    findSpotCore name [] relaxedRaw =
      (matchLoop name (pipeline relaxedRaw), pipeline relaxedRaw, true) := by
  simp only [findSpotCore, pipeline_nil]
  rfl

theorem pipeline_isEmpty_false {strictRaw : List Tile} (h : strictRaw ≠ []) :
    (pipeline strictRaw).isEmpty = false := by
  rw [Bool.eq_false_iff]
  intro he
  exact h ((pipeline_eq_nil_iff strictRaw).mp (List.isEmpty_iff.mp he))

theorem findSpotCore_of_strict_ne (name : Str) {strictRaw : List Tile}
    (relaxedRaw : List Tile) (h : strictRaw ≠ []) :
    findSpotCore name strictRaw relaxedRaw =
      (matchLoop name (pipeline strictRaw), pipeline strictRaw, false) := by
  simp only [findSpotCore, pipeline_isEmpty_false h]
  rfl

theorem matchSpot_pkg (name : Str) (L : List Tile) :
    (∀ s, matchLoop name (assignSpots L) = some s →
      1 ≤ s ∧ s ≤ (assignSpots L).length ∧
      (∃ t, (assignSpots L)[s - 1]? = some (t, s) ∧
        normTitle t.title = normTitle name) ∧
      (∀ p ∈ assignSpots L, normTitle p.1.title = normTitle name → s ≤ p.2)) ∧
    (matchLoop name (assignSpots L) = none ↔
      ∀ p ∈ assignSpots L, normTitle p.1.title ≠ normTitle name) := by
  constructor
  · intro s h
    obtain ⟨h1, h2, ⟨t, h3, h4⟩, h5⟩ := matchLoop_some name L s h
    have hlen : (assignSpots L).length = L.length :=
      assignSpotsFrom_length 1 L
    refine ⟨h1, by omega, ⟨t, ?_, h4⟩, ?_⟩
    · rw [assignSpots, assignSpotsFrom_getElem?, h3, Option.map_some']
      have he : 1 + (s - 1) = s := by omega
      rw [he]
    · intro p hp hpt
      obtain ⟨i, hi, hpi, hp2⟩ := assignSpotsFrom_mem 1 L p hp
      by_contra hlt
      have hilt : i < s - 1 := by omega
      exact h5 i hilt p.1 hpi hpt
  · exact matchLoop_none_iff name (assignSpots L)

theorem pyStrip_cons_space (s : Str) : pyStrip (' ' :: s) = pyStrip s := by
  unfold pyStrip
  rw [List.dropWhile_cons]
  have hs : isPySpace ' ' = true := by decide
  rw [hs]
  simp

theorem pyStrip_append_space (s : Str) : pyStrip (s ++ [' ']) = pyStrip s := by
  unfold pyStrip
  rw [List.dropWhile_append]
  have hs : isPySpace ' ' = true := by decide
  by_cases h : (s.dropWhile isPySpace).isEmpty
  · rw [if_pos h]
    rw [List.isEmpty_iff] at h
    rw [h]
    have h2 : List.dropWhile isPySpace [' '] = [] := by decide
    rw [h2]
  · rw [if_neg h]
    rw [List.reverse_append]
    have h3 : ([' '] : Str).reverse = [' '] := rfl
    rw [h3, List.singleton_append, List.dropWhile_cons, hs]
    simp

-- ======================= claim theorems =======================

/-- Claim C9: normTitle is idempotent, and collapsing makes it
insensitive to the length of interior whitespace runs, witnessed on the
pair of inputs named by the specification. -/
theorem claimC9_normalize_idempotent :
    (∀ s : Str, normTitle (normTitle s) = normTitle s) ∧
    normTitle "A   B".toList = normTitle "A B".toList :=
  ⟨normTitle_idem, by decide⟩

/-- Claim C6: on every extraction result of find_spot (either tier), the
spot values are exactly 1, 2, ..., n in list order, and each record is
related to its successor by the lexicographic (y, x) order used by the
sort. -/
theorem claimC6_ranks_contiguous_sorted (name : Str)
    (strictRaw relaxedRaw : List Tile) :
    ((findSpotCore name strictRaw relaxedRaw).2.1.map Prod.snd =
      List.range' 1 (findSpotCore name strictRaw relaxedRaw).2.1.length) ∧
    (findSpotCore name strictRaw relaxedRaw).2.1.Chain'
      (fun p q => tileLeP p.1 q.1) := by
  by_cases h : strictRaw = []
  · subst h
    rw [findSpotCore_of_strict_nil]
    exact ⟨pipeline_map_snd relaxedRaw, pipeline_chain relaxedRaw⟩
  · rw [findSpotCore_of_strict_ne name relaxedRaw h]
    exact ⟨pipeline_map_snd strictRaw, pipeline_chain strictRaw⟩

/-- Claim C5, counterexample: norm_title does not strip the registered
mark u00ae, the trademark mark u2122 or the apostrophe; the string
consisting of exactly these three characters is returned unchanged,
where the claim predicts the empty string. -/
theorem claimC5_counterexample :
    normTitle [Char.ofNat 174, Char.ofNat 8482, Char.ofNat 39] =
      [Char.ofNat 174, Char.ofNat 8482, Char.ofNat 39] ∧
    normTitle [Char.ofNat 174, Char.ofNat 8482, Char.ofNat 39] ≠ [] := by
  constructor
  · decide
  · decide

/-- Claim C5, amended: norm_title trims (a leading or trailing space
never changes the result), leaves no ascii uppercase letter, no
non-breaking space and no en or em dash in its output, and collapses
whitespace runs (no two adjacent whitespace characters remain); it does
not strip registered or trademark marks or apostrophes, as the two
closing concrete evaluations show. -/
theorem claimC5_normalize_steps :
    (∀ s : Str,
      normTitle (' ' :: s) = normTitle s ∧
      normTitle (s ++ [' ']) = normTitle s ∧
      (∀ c ∈ normTitle s, ¬(65 ≤ c.toNat ∧ c.toNat ≤ 90)) ∧
      (∀ c ∈ normTitle s, c.toNat ≠ 160 ∧ c.toNat ≠ 8211 ∧ c.toNat ≠ 8212) ∧
      noAdjSpace (normTitle s) = true) ∧
    normTitle " A B – C ".toList = "a b - c".toList ∧
    normTitle [Char.ofNat 174, Char.ofNat 8482, Char.ofNat 39] =
      [Char.ofNat 174, Char.ofNat 8482, Char.ofNat 39] := by
  refine ⟨?_, by decide, by decide⟩
  intro s
  have hchars := normTitle_chars s
  refine ⟨?_, ?_, ?_, ?_, normTitle_noAdj s⟩
  · show collapseAux false (List.map normChar (pyStrip (' ' :: s))) = normTitle s
    rw [pyStrip_cons_space]
    rfl
  · show collapseAux false (List.map normChar (pyStrip (s ++ [' ']))) = normTitle s
    rw [pyStrip_append_space]
    rfl
  · intro c hc
    rcases hchars c hc with h | h
    · subst h
      decide
    · have := (normChar_not_special c).2.2.2
      rw [h.1] at this
      exact this
  · intro c hc
    rcases hchars c hc with h | h
    · subst h
      refine ⟨by decide, by decide, by decide⟩
    · have h1 := (normChar_not_special c).1
      have h2 := (normChar_not_special c).2.1
      have h3 := (normChar_not_special c).2.2.1
      rw [h.1] at h1 h2 h3
      exact ⟨h1, h2, h3⟩

/-- Claim C2, counterexample: two records with the same title, four
pixels apart in x (well within nine), are not collapsed, because
round(12, -1) = 10 and round(16, -1) = 20; and two records at the same
position whose titles normalise identically but differ in raw case are
not collapsed either, because the key uses the raw title. -/
theorem claimC2_counterexample :
    tileLeft.title = tileRight.title ∧
    tileRight.x - tileLeft.x = 4 ∧ tileRight.y = tileLeft.y ∧
    dedupeByBox [tileLeft, tileRight] = [tileLeft, tileRight] ∧
    tileUpper.x = tileLower.x ∧ tileUpper.y = tileLower.y ∧
    normTitle tileUpper.title = normTitle tileLower.title ∧
    dedupeByBox [tileUpper, tileLower] = [tileUpper, tileLower] := by
  decide

/-- Claim C2, amended: the dedupe key is (round(x, -1), round(y, -1),
raw title); a pair of records collapses exactly on key equality (first
occurrence kept), records with identical position but different
normalised titles are never collapsed, and no two survivors of
dedupe_by_box share a key. -/
theorem claimC2_dedupe_key :
    (∀ a b : Tile, pyRound10 a.x = pyRound10 b.x →
      pyRound10 a.y = pyRound10 b.y → a.title = b.title →
      dedupeByBox [a, b] = [a]) ∧
    (∀ a b : Tile, a.x = b.x → a.y = b.y →
      normTitle a.title ≠ normTitle b.title →
      dedupeByBox [a, b] = [a, b]) ∧
    (∀ l : List Tile,
      (dedupeByBox l).Pairwise (fun a b => tileKey a ≠ tileKey b)) := by
  refine ⟨?_, ?_, ?_⟩
  · intro a b h1 h2 h3
    apply dedupe_pair_collapse
    rw [tileKey, tileKey, h1, h2, h3]
  · intro a b _ _ h3
    apply dedupe_pair_keep
    intro he
    apply h3
    have ht : a.title = b.title := congrArg (fun k => k.2.2) he
    rw [ht]
  · intro l
    exact (dedupeAux_inv [] l).2

/-- Claim C2, witness for the amended statement: a pair whose
coordinates round to the same multiples of ten and whose raw titles
agree does collapse to its first element. -/
theorem claimC2_witness :
    dedupeByBox [{ title := ['w'], x := 14, y := 4 },
      { title := ['w'], x := 12, y := 0 }] =
      [{ title := ['w'], x := 14, y := 4 }] :=
  claimC2_dedupe_key.1 _ _ (by decide) (by decide) (by decide)

/-- Claim C1, counterexample: the normalised target is a strict
substring of the only candidate title, yet find_spot returns no spot
at all (and certainly not the candidate index with confidence 0.99):
the matching loop of lines 224-228 has no substring tier. -/
theorem claimC1_counterexample :
    hasSub (normTitle "Beurer BM 28".toList) (normTitle beurerTile.title) = true ∧
    normTitle beurerTile.title ≠ normTitle "Beurer BM 28".toList ∧
    (findSpotCore "Beurer BM 28".toList [beurerTile] []).1 = none ∧
    (findSpotCore "Beurer BM 28".toList [beurerTile] []).2.1 =
      [(beurerTile, 1)] := by
  refine ⟨by decide, by decide, by decide, by decide⟩

/-- Claim C1, amended: when no candidate normalises exactly equal to the
target, the matching loop returns none, whatever substring containment
relations hold between the normalised titles. -/
theorem claimC1_no_substring_tier (name : Str) (items : List (Tile × Nat))
    (h : ∀ p ∈ items, normTitle p.1.title ≠ normTitle name) :
    matchLoop name items = none :=
  (matchLoop_none_iff name items).mpr h

/-- Claim C1, witness for the amended statement at the substring-holding
input of the counterexample. -/
theorem claimC1_witness :
    matchLoop "Beurer BM 28".toList [(beurerTile, 1)] = none :=
  claimC1_no_substring_tier "Beurer BM 28".toList [(beurerTile, 1)] (by decide)

/-- Claim C3, counterexample: the value returned by find_spot at a
concrete invocation has three components and none of them is a
matched-title component, where the claim promises a four component
result including an optional matched_title. -/
theorem claimC3_counterexample :
    (findSpotRet "Gadget".toList [tileUpper] []).length = 3 ∧
    (findSpotRet "Gadget".toList [tileUpper] []).all
      (fun c => !c.isTitleC) = true := by
  decide

/-- Claim C3, amended: find_spot returns exactly the three components
(optional rank, ordered evidence, used_fallback flag) of line 231, in
that order, with no matched_title and no confidence component. -/
theorem claimC3_return_shape (name : Str) (strictRaw relaxedRaw : List Tile) :
    findSpotRet name strictRaw relaxedRaw =
      [RetComp.rank (findSpotCore name strictRaw relaxedRaw).1,
        RetComp.evidence (findSpotCore name strictRaw relaxedRaw).2.1,
        RetComp.flag (findSpotCore name strictRaw relaxedRaw).2.2] ∧
    (findSpotRet name strictRaw relaxedRaw).length = 3 ∧
    ∀ c ∈ findSpotRet name strictRaw relaxedRaw,
      c.isTitleC = false ∧ c.isConfC = false := by
  have hsh : findSpotRet name strictRaw relaxedRaw =
      [RetComp.rank (findSpotCore name strictRaw relaxedRaw).1,
        RetComp.evidence (findSpotCore name strictRaw relaxedRaw).2.1,
        RetComp.flag (findSpotCore name strictRaw relaxedRaw).2.2] := by
    simp only [findSpotRet, findSpotCore]
    by_cases h : (pipeline strictRaw).isEmpty = true
    · simp [h]
    · simp [h]
  refine ⟨hsh, ?_, ?_⟩
  · rw [hsh]
    rfl
  · rw [hsh]
    intro c hc
    simp only [List.mem_cons, List.not_mem_nil, or_false] at hc
    rcases hc with rfl | rfl | rfl
    · exact ⟨rfl, rfl⟩
    · exact ⟨rfl, rfl⟩
    · exact ⟨rfl, rfl⟩

/-- Claim C4: when the strict evaluate call of line 210 raises, the run
attempts that step but neither context.close nor browser.close of
line 230 ever executes (they are not in a finally block); only the
async-with teardown of the playwright driver runs on that exit path.
On a failure-free run each close executes exactly once. -/
theorem claimC4_close_skipped_on_error :
    PStep.evalStrict ∈ findSpotRun false false failStrictOracle ∧
    PStep.stopPlaywright ∈ findSpotRun false false failStrictOracle ∧
    (findSpotRun false false failStrictOracle).count PStep.closeContext = 0 ∧
    (findSpotRun false false failStrictOracle).count PStep.closeBrowser = 0 ∧
    (findSpotRun false false noFailOracle).count PStep.closeContext = 1 ∧
    (findSpotRun false false noFailOracle).count PStep.closeBrowser = 1 := by
  decide

/-- Claim C7: when the strict extraction yields zero candidates the
relaxed evaluate runs and used_fallback is true; when it yields at
least one candidate the relaxed evaluate never runs and used_fallback
is false. -/
theorem claimC7_strict_relaxed_fallback (sd : Bool) (name : Str)
    (strictRaw relaxedRaw : List Tile) :
    (strictRaw = [] →
      PStep.evalRelaxed ∈ findSpotTrace sd strictRaw ∧
      (findSpotCore name strictRaw relaxedRaw).2.2 = true) ∧
    (strictRaw ≠ [] →
      PStep.evalRelaxed ∉ findSpotTrace sd strictRaw ∧
      (findSpotCore name strictRaw relaxedRaw).2.2 = false) := by
  constructor
  · intro h
    subst h
    constructor
    · unfold findSpotTrace
      rw [pipeline_nil]
      cases sd
      · decide
      · decide
    · rw [findSpotCore_of_strict_nil]
  · intro h
    have hie := pipeline_isEmpty_false h
    constructor
    · unfold findSpotTrace
      rw [hie]
      cases sd
      · decide
      · decide
    · rw [findSpotCore_of_strict_ne name relaxedRaw h]

/-- Claim C7, witness: at the empty strict extraction the relaxed
evaluate is on the trace and the fallback flag is returned true. -/
theorem claimC7_witness :
    PStep.evalRelaxed ∈ findSpotTrace false [] ∧
    (findSpotCore [] [] []).2.2 = true :=
  (claimC7_strict_relaxed_fallback false [] [] []).1 rfl

/-- Claim C8, counterexample: an exact normalised hit exists (the spot
of its tile, 2, is returned) but no component of the returned tuple is
a confidence component, where the claim promises confidence 1.0. -/
theorem claimC8_counterexample :
    (findSpotCore "Omron  M2   BASIC".toList [omronTile, beurerTile] []).1 =
      some 2 ∧
    normTitle omronTile.title = normTitle "Omron  M2   BASIC".toList ∧
    (findSpotRet "Omron  M2   BASIC".toList [omronTile, beurerTile] []).all
      (fun c => !c.isConfC) = true := by
  decide

/-- Claim C8, amended: the matching loop scans the candidates in order
and returns, for the first exact normalised hit at zero-based index i,
the spot i + 1; no confidence value accompanies it. -/
theorem claimC8_first_exact_hit (name : Str) (l : List Tile) (i : Nat)
    (hi : i < l.length)
    (hm : normTitle (l[i].title) = normTitle name)
    (hmin : ∀ j, j < i → ∀ u, l[j]? = some u →
      normTitle u.title ≠ normTitle name) :
    matchLoop name (assignSpots l) = some (i + 1) :=
  matchLoop_first name l i hi hm hmin

/-- Claim C8, witness: the first exact hit in scan order is found at
index 1 and spot 2 is returned. -/
theorem claimC8_witness :
    matchLoop "Omron M2 Basic".toList (assignSpots [beurerTile, omronTile]) =
      some 2 :=
  claimC8_first_exact_hit "Omron M2 Basic".toList [beurerTile, omronTile] 1
    (by decide) (by decide)
    (fun j hj u hu => by
      cases j with
      | zero =>
        rw [List.getElem?_cons_zero] at hu
        injection hu with hu
        rw [← hu]
        decide
      | succ j' => exact absurd hj (by omega))

/-- Claim C10: a returned spot s lies between 1 and the evidence length,
the evidence entry at index s - 1 carries spot s and a title that
normalises equal to the product name, every matching evidence entry has
spot at least s, and the spot is none exactly when no evidence title
normalises equal to the product name. -/
theorem claimC10_spot_evidence (name : Str) (strictRaw relaxedRaw : List Tile) :
    (∀ s, (findSpotCore name strictRaw relaxedRaw).1 = some s →
      1 ≤ s ∧ s ≤ (findSpotCore name strictRaw relaxedRaw).2.1.length ∧
      (∃ t, (findSpotCore name strictRaw relaxedRaw).2.1[s - 1]? =
          some (t, s) ∧ normTitle t.title = normTitle name) ∧
      ∀ p ∈ (findSpotCore name strictRaw relaxedRaw).2.1,
        normTitle p.1.title = normTitle name → s ≤ p.2) ∧
    ((findSpotCore name strictRaw relaxedRaw).1 = none ↔
      ∀ p ∈ (findSpotCore name strictRaw relaxedRaw).2.1,
        normTitle p.1.title ≠ normTitle name) := by
  by_cases h : strictRaw = []
  · subst h
    rw [findSpotCore_of_strict_nil]
    exact matchSpot_pkg name (sortByYX (dedupeByBox relaxedRaw))
  · rw [findSpotCore_of_strict_ne name relaxedRaw h]
    exact matchSpot_pkg name (sortByYX (dedupeByBox strictRaw))

/-- Claim C10, witness: at a concrete invocation returning spot 2, the
four consequent properties hold. -/
theorem claimC10_witness :
    1 ≤ 2 ∧
    2 ≤ (findSpotCore "omron m2 basic".toList
      [omronTile, beurerTile] []).2.1.length ∧
    (∃ t, (findSpotCore "omron m2 basic".toList
        [omronTile, beurerTile] []).2.1[2 - 1]? = some (t, 2) ∧
      normTitle t.title = normTitle "omron m2 basic".toList) ∧
    ∀ p ∈ (findSpotCore "omron m2 basic".toList
      [omronTile, beurerTile] []).2.1,
      normTitle p.1.title = normTitle "omron m2 basic".toList → 2 ≤ p.2 :=
  (claimC10_spot_evidence "omron m2 basic".toList
    [omronTile, beurerTile] []).1 2 (by decide)
